import Mathlib

/-!
Shallow embedding of the exam-seating optimizer in
`src/cpp_solver/solver.cpp` (class `FastSeatingOptimizer`), the complete
variant of the two C++ drafts (the stub in `src/unnamed/part_000` builds no
constraints and is not normative).

Modelling conventions:
* C++ `int` fields (`Student::id`, `Room::rows`, `Room::cols`, positions)
  are embedded as `Int`; no arithmetic in the translated code can overflow
  a 32-bit int for inputs whose list lengths are representable, so no
  wrap-around is applied.  Sizes and counters that the source keeps as
  `int`/`size_t` counts of containers are embedded as `Nat`.
* The variable map `x` keys on the string
  `id ++ "_" ++ ki ++ "_" ++ row ++ "_" ++ col`; this keying is injective
  in the four components, so keys are embedded as the tuple
  `(id, ki, row, col)` (`VarKey`).  A key is present in the map exactly
  when some iteration of the creation loop inserted it (`var_exists`).
* `exam_to_students` is a `std::unordered_map`; only its per-exam contents
  are determined by the abstract container semantics, so the embedding
  materialises the groups in first-appearance order (`push_back` order
  within a group matches the source).  Every theorem below either does not
  depend on the group iteration order or notes that it does.
* The CP-SAT solver itself is external to the repository; it is modelled
  as an oracle `CpSolverResponse` giving a status, a truth value for every
  created Boolean variable, and one for every room-usage variable `y[ki]`.
  `SatModel` states that such a response satisfies every constraint the
  model builder emitted.
-/

namespace Seating

structure Student where
  id : Int
  exam : String
deriving DecidableEq, Repr

structure Room where
  id : String
  rows : Int
  cols : Int
  skip_rows : Bool
  skip_cols : Bool
deriving DecidableEq, Repr

structure Assignment where
  student_id : Int
  room_id : String
  row : Int
  col : Int
deriving DecidableEq, Repr

def roomDefault : Room := ⟨"", 0, 0, false, false⟩

/-- Positions of one room, translated from the loop body of
`FastSeatingOptimizer::precompute_positions` (solver.cpp:48-55):
row loop skipping odd rows when `skip_rows`, column loop skipping odd
columns when `skip_cols`.  A non-positive `rows`/`cols` makes the
corresponding `for` loop run zero times, hence `Int.toNat`. -/
def precompute_positions_one (room : Room) : List (Int × Int) :=
  (List.range room.rows.toNat).flatMap (fun (r : Nat) =>
    if room.skip_rows && (r % 2 != 0) then []
    else (List.range room.cols.toNat).filterMap (fun (c : Nat) =>
      if room.skip_cols && (c % 2 != 0) then none
      else some (((r : Nat) : Int), ((c : Nat) : Int))))

/-- `FastSeatingOptimizer::precompute_positions` (solver.cpp:42-62). -/
def precompute_positions (rooms : List Room) : List (List (Int × Int)) :=
  rooms.map precompute_positions_one

/-- `FastSeatingOptimizer::is_adjacent` (solver.cpp:64-66):
Manhattan distance exactly 1. -/
def is_adjacent (pos1 pos2 : Int × Int) : Bool :=
  ((pos1.1 - pos2.1).natAbs + (pos1.2 - pos2.2).natAbs) == 1

/-- The three inputs of `solve` that shape the model (the timeout only
parametrises the external search). `restrictions` is an association list
standing for the `std::unordered_map`; the source only queries it by key
(`find`/`at`), so the list order is irrelevant. -/
structure Input where
  students : List Student
  rooms : List Room
  restrictions : List (String × List String)

def room_positions (inp : Input) : List (List (Int × Int)) :=
  precompute_positions inp.rooms

/-- `total_capacity` accumulation loop (solver.cpp:86-89). -/
def total_capacity (inp : Input) : Nat :=
  (room_positions inp).foldl (fun acc positions => acc + positions.length) 0

/-- The only pre-solve rejection in the source: the capacity test at
solver.cpp:93-96 (`return {}` before the solver is invoked).  The error
kind name is the spec's label for this exit (the code prints
"ERROR: Not enough capacity!"). -/
inductive PreError
  | InsufficientCapacity
deriving DecidableEq, Repr

/-- `none` means control reaches model building and the solver call. -/
def presolve_error (inp : Input) : Option PreError :=
  if total_capacity inp < inp.students.length then some .InsufficientCapacity
  else none

/-- `restrictions.find(exam)` (solver.cpp:123-124). -/
def lookupRestriction (restrictions : List (String × List String))
    (exam : String) : Option (List String) :=
  (restrictions.find? (fun p => p.1 == exam)).map (fun p => p.2)

/-- The restriction filter of the variable-creation loop
(solver.cpp:122-129): a room is allowed for an exam when the exam has no
restriction entry or the room id is listed. -/
def room_allowed (restrictions : List (String × List String))
    (exam : String) (rid : String) : Bool :=
  match lookupRestriction restrictions exam with
  | none => true
  | some allowed_rooms => allowed_rooms.contains rid

/-- Identity of a decision variable `x`: the string key
`id_ki_row_col` is injective in its four components. -/
abbrev VarKey := Int × Nat × Int × Int

/-- Key membership in the map `x` after the creation loop
(solver.cpp:117-140): some student record with this id passes the
restriction filter for room `ki`, and the position is one of that
room's precomputed positions. -/
def var_exists (inp : Input) (sid : Int) (ki : Nat) (pos : Int × Int) : Bool :=
  decide (ki < inp.rooms.length) &&
  inp.students.any (fun s =>
    s.id == sid &&
    room_allowed inp.restrictions s.exam ((inp.rooms.getD ki roomDefault).id)) &&
  ((room_positions inp).getD ki []).contains pos

/-- One step of building `exam_to_students` (solver.cpp:102-105):
`exam_to_students[student.exam].push_back(student.id)`. -/
def add_student (groups : List (String × List Int)) (s : Student) :
    List (String × List Int) :=
  if groups.any (fun g => g.1 == s.exam) then
    groups.map (fun g => if g.1 == s.exam then (g.1, g.2 ++ [s.id]) else g)
  else groups ++ [(s.exam, [s.id])]

/-- Contents of the `exam_to_students` map, with groups materialised in
first-appearance order (the container's own iteration order is
implementation defined; see the header comment). -/
def exam_to_students (students : List Student) : List (String × List Int) :=
  students.foldl add_student []

/-- The candidate variables of one student collected by the
exactly-once constraint loop (solver.cpp:145-159): all rooms, all
positions, keeping the keys present in `x`. -/
def student_vars (inp : Input) (s : Student) : List VarKey :=
  (List.range inp.rooms.length).flatMap (fun ki =>
    ((room_positions inp).getD ki []).filterMap (fun pos =>
      if var_exists inp s.id ki pos then some (s.id, ki, pos.1, pos.2)
      else none))

/-- The variables of one seat collected by the no-double-booking loop
(solver.cpp:167-183): all students whose key for this seat is in `x`. -/
def seat_vars (inp : Input) (ki : Nat) (pos : Int × Int) : List VarKey :=
  inp.students.filterMap (fun s =>
    if var_exists inp s.id ki pos then some (s.id, ki, pos.1, pos.2)
    else none)

/-- Constraint 1 (solver.cpp:144-164): `Sum(student_vars) == 1`, emitted
only when the collected list is non-empty. -/
def assign_cons (inp : Input) : List (List VarKey) :=
  inp.students.filterMap (fun s =>
    if (student_vars inp s).isEmpty then none else some (student_vars inp s))

/-- Constraint 2, seat part (solver.cpp:167-188): `Sum(seat_vars) <= 1`
per seat, emitted only when the collected list is non-empty. -/
def seat_cons (inp : Input) : List (List VarKey) :=
  (List.range inp.rooms.length).flatMap (fun ki =>
    ((room_positions inp).getD ki []).filterMap (fun pos =>
      if (seat_vars inp ki pos).isEmpty then none else some (seat_vars inp ki pos)))

/-- Constraint 2, room-usage linking (solver.cpp:180): `x <= y[ki]` for
every variable found while scanning seat `(ki, pos)`. -/
def link_cons (inp : Input) : List (VarKey × Nat) :=
  (List.range inp.rooms.length).flatMap (fun ki =>
    ((room_positions inp).getD ki []).flatMap (fun pos =>
      (seat_vars inp ki pos).map (fun k => (k, ki))))

/-- Ordered pairs `(l[i], l[j])` with `i < j` in the order produced by the
source's double loops `for i; for j = i + 1`. -/
def orderedPairs {α : Type} : List α → List (α × α)
  | [] => []
  | a :: rest => rest.map (fun b => (a, b)) ++ orderedPairs rest

/-- The separation-constraint candidates of solver.cpp:194-229 in loop
order before the cap is applied: exam groups of size at least 2, rooms in
index order, position pairs with `i < j` kept when adjacent, student pairs
with `si < sj`, kept when both keys are in `x`.  Note the source pairs the
first student of the pair with the first position and the second with the
second; the swapped pairing is never generated. -/
def sep_candidates (inp : Input) : List (VarKey × VarKey) :=
  (exam_to_students inp.students).flatMap (fun g =>
    if g.2.length < 2 then []
    else (List.range inp.rooms.length).flatMap (fun ki =>
      (orderedPairs ((room_positions inp).getD ki [])).flatMap (fun pq =>
        if is_adjacent pq.1 pq.2 then
          (orderedPairs g.2).filterMap (fun ss =>
            if var_exists inp ss.1 ki pq.1 && var_exists inp ss.2 ki pq.2 then
              some ((ss.1, ki, pq.1.1, pq.1.2), (ss.2, ki, pq.2.1, pq.2.2))
            else none)
        else [])))

/-- `MAX_SEPARATION_CONSTRAINTS` (solver.cpp:192). -/
def MAX_SEPARATION_CONSTRAINTS : Nat := 50000

/-- The guarded emission of solver.cpp:203-227: candidates are visited in
loop order and one constraint is emitted, incrementing
`separation_count`, while the count is below the cap.  (In the source the
`separation_count < MAX` guard sits on every loop header; since the count
never decreases, that is the same as guarding each single emission.) -/
def emitCapped (cap : Nat) :
    Nat × List (VarKey × VarKey) → List (VarKey × VarKey) →
    Nat × List (VarKey × VarKey)
  | st, [] => st
  | (n, acc), c :: cs =>
    emitCapped cap (if n < cap then (n + 1, acc ++ [c]) else (n, acc)) cs

def sep_fold (inp : Input) : Nat × List (VarKey × VarKey) :=
  emitCapped MAX_SEPARATION_CONSTRAINTS (0, []) (sep_candidates inp)

/-- Final value of `separation_count` (solver.cpp:191, printed at 231). -/
def separation_count (inp : Input) : Nat := (sep_fold inp).1

/-- The separation constraints actually added to the model. -/
def sep_cons (inp : Input) : List (VarKey × VarKey) := (sep_fold inp).2

/-- The constraint part of the `CpModelBuilder` contents when
`solver.Solve` is reached (the objective `Minimize(Sum(y))` constrains
nothing). -/
structure CpModel where
  assign : List (List VarKey)
  seat : List (List VarKey)
  link : List (VarKey × Nat)
  sep : List (VarKey × VarKey)

def build_model (inp : Input) : CpModel :=
  ⟨assign_cons inp, seat_cons inp, link_cons inp, sep_cons inp⟩

/-- `CpSolverStatus` values the source inspects. -/
inductive CpSolverStatus
  | UNKNOWN
  | MODEL_INVALID
  | FEASIBLE
  | INFEASIBLE
  | OPTIMAL
deriving DecidableEq, Repr

/-- Oracle for the external CP-SAT solver: a status, the Boolean value of
each `x` variable (looked up by key), and of each `y` variable. -/
structure CpSolverResponse where
  status : CpSolverStatus
  value : VarKey → Bool
  yvalue : Nat → Bool

/-- A valuation satisfies the emitted model: each linear constraint holds
with Boolean variables read as 0/1. -/
def SatModel (m : CpModel) (v : VarKey → Bool) (yv : Nat → Bool) : Prop :=
  (∀ ks ∈ m.assign, ks.countP v = 1) ∧
  (∀ ks ∈ m.seat, ks.countP v ≤ 1) ∧
  (∀ kc ∈ m.link, (if v kc.1 then (1 : Nat) else 0) ≤ (if yv kc.2 then 1 else 0)) ∧
  (∀ pc ∈ m.sep, (if v pc.1 then (1 : Nat) else 0) + (if v pc.2 then 1 else 0) ≤ 1)

/-- Per-student part of the extraction loop (solver.cpp:259-274): for each
room in index order, scan the room's positions in precomputed order and
emit the first key that is present in `x` and true in the response; the
`break` leaves only the position loop, so every room is scanned. -/
def extract_student (inp : Input) (v : VarKey → Bool) (s : Student) :
    List Assignment :=
  (List.range inp.rooms.length).filterMap (fun ki =>
    (((room_positions inp).getD ki []).find? (fun pos =>
        var_exists inp s.id ki pos && v (s.id, ki, pos.1, pos.2))).map
      (fun pos => ⟨s.id, (inp.rooms.getD ki roomDefault).id, pos.1, pos.2⟩))

/-- The whole extraction loop: students in input order. -/
def extract (inp : Input) (v : VarKey → Bool) : List Assignment :=
  inp.students.flatMap (extract_student inp v)

/-- `FastSeatingOptimizer::solve` as a function of the input and the
solver oracle: the pre-solve capacity exit (solver.cpp:93-96), then the
status gate and extraction (solver.cpp:256-279). -/
def solve (inp : Input) (resp : CpSolverResponse) : List Assignment :=
  match presolve_error inp with
  | some _ => []
  | none =>
    if resp.status = .OPTIMAL ∨ resp.status = .FEASIBLE then
      extract inp resp.value
    else []

instance (m : CpModel) (v : VarKey → Bool) (yv : Nat → Bool) :
    Decidable (SatModel m v yv) := by
  unfold SatModel
  exact inferInstance

/-! ## Basic characterisations of the translated definitions -/

/-- The spec's usability predicate (spec section 3): in-bounds and kept by
the skip flags. -/
def usable (room : Room) (p : Int × Int) : Prop :=
  0 ≤ p.1 ∧ p.1 < room.rows ∧ 0 ≤ p.2 ∧ p.2 < room.cols ∧
  (room.skip_rows = false ∨ p.1 % 2 = 0) ∧
  (room.skip_cols = false ∨ p.2 % 2 = 0)

/-- Row-major order: row strictly first, column second. -/
def rowMajorLt (p q : Int × Int) : Prop :=
  p.1 < q.1 ∨ (p.1 = q.1 ∧ p.2 < q.2)

theorem mem_precompute_positions_one {room : Room} {p : Int × Int} :
    p ∈ precompute_positions_one room ↔ usable room p := by
  unfold precompute_positions_one usable
  rw [List.mem_flatMap]
  constructor
  · rintro ⟨r, hr, hp⟩
    rw [List.mem_range] at hr
    split at hp
    · simp at hp
    · next hcond =>
      obtain ⟨c, hc, heq⟩ := List.mem_filterMap.mp hp
      rw [List.mem_range] at hc
      split at heq
      · simp at heq
      · next hcond2 =>
        obtain rfl : p = ((r : Int), (c : Int)) := (Option.some_inj.mp heq).symm
        simp only [Bool.and_eq_true, bne_iff_ne, ne_eq, not_and] at hcond hcond2
        refine ⟨by simp, by simp; omega, by simp, by simp; omega, ?_, ?_⟩
        · rcases Bool.eq_false_or_eq_true room.skip_rows with h | h
          · have := hcond h
            right
            simp only []
            omega
          · exact Or.inl h
        · rcases Bool.eq_false_or_eq_true room.skip_cols with h | h
          · have := hcond2 h
            right
            simp only []
            omega
          · exact Or.inl h
  · rintro ⟨h0, h1, h2, h3, h4, h5⟩
    refine ⟨p.1.toNat, List.mem_range.mpr (by omega), ?_⟩
    have hsr : (room.skip_rows && (p.1.toNat % 2 != 0)) = false := by
      rcases h4 with h | h
      · simp [h]
      · have hm : p.1.toNat % 2 = 0 := by omega
        simp [hm]
    rw [if_neg (by rw [hsr]; exact Bool.false_ne_true)]
    rw [List.mem_filterMap]
    refine ⟨p.2.toNat, List.mem_range.mpr (by omega), ?_⟩
    have hsc : (room.skip_cols && (p.2.toNat % 2 != 0)) = false := by
      rcases h5 with h | h
      · simp [h]
      · have hm : p.2.toNat % 2 = 0 := by omega
        simp [hm]
    rw [if_neg (by rw [hsc]; exact Bool.false_ne_true)]
    have hp : ((p.1.toNat : Int), (p.2.toNat : Int)) = p := by
      obtain ⟨a, b⟩ := p
      simp only [Prod.mk.injEq]
      constructor <;> simp <;> omega
    rw [hp]

theorem pairwise_precompute_positions_one (room : Room) :
    (precompute_positions_one room).Pairwise rowMajorLt := by
  unfold precompute_positions_one
  rw [List.pairwise_flatMap]
  constructor
  · intro r hr
    split
    · exact List.Pairwise.nil
    · rw [List.pairwise_filterMap]
      refine (List.pairwise_lt_range _).imp_of_mem ?_
      intro c c' hc hc' hlt b hb b' hb'
      split at hb
      · simp at hb
      · split at hb'
        · simp at hb'
        · simp only [Option.mem_def, Option.some_inj] at hb hb'
          subst hb
          subst hb'
          refine Or.inr ⟨rfl, ?_⟩
          show (c : Int) < (c' : Int)
          exact_mod_cast hlt
  · refine (List.pairwise_lt_range _).imp_of_mem ?_
    intro r r' hr hr' hlt x hx y hy
    have hx1 : x.1 = (r : Int) := by
      split at hx
      · simp at hx
      · obtain ⟨c, hc, heq⟩ := List.mem_filterMap.mp hx
        split at heq
        · simp at heq
        · obtain rfl := (Option.some_inj.mp heq).symm
          rfl
    have hy1 : y.1 = (r' : Int) := by
      split at hy
      · simp at hy
      · obtain ⟨c, hc, heq⟩ := List.mem_filterMap.mp hy
        split at heq
        · simp at heq
        · obtain rfl := (Option.some_inj.mp heq).symm
          rfl
    exact Or.inl (by rw [hx1, hy1]; exact_mod_cast hlt)

/-- Claim C8: for every room, the precomputed position list contains
exactly the in-bounds positions kept by the skip flags — usable iff
`(¬skip_rows ∨ row mod 2 = 0) ∧ (¬skip_cols ∨ col mod 2 = 0)` — and is
emitted in row-major order (row outer ascending, column inner
ascending). -/
theorem C8_positions_exact_row_major (room : Room) :
    (∀ p : Int × Int, p ∈ precompute_positions_one room ↔ usable room p) ∧
    (precompute_positions_one room).Pairwise rowMajorLt :=
  ⟨fun _ => mem_precompute_positions_one, pairwise_precompute_positions_one room⟩

theorem room_positions_getD (inp : Input) (ki : Nat) :
    (room_positions inp).getD ki [] =
      precompute_positions_one (inp.rooms.getD ki roomDefault) := by
  have h : ([] : List (Int × Int)) = precompute_positions_one roomDefault := rfl
  rw [room_positions, precompute_positions, h, List.getD_map]

theorem precompute_positions_one_eq_nil {room : Room}
    (h : room.rows ≤ 0 ∨ room.cols ≤ 0) :
    precompute_positions_one room = [] := by
  unfold precompute_positions_one
  rcases h with h | h
  · have h0 : room.rows.toNat = 0 := by omega
    rw [h0]
    rfl
  · have h0 : room.cols.toNat = 0 := by omega
    rw [h0]
    rw [List.flatMap_eq_nil_iff]
    intro r hr
    split
    · rfl
    · rfl

theorem mem_student_vars {inp : Input} {s : Student} {k : VarKey} :
    k ∈ student_vars inp s ↔
      ∃ ki pos, ki < inp.rooms.length ∧ pos ∈ (room_positions inp).getD ki [] ∧
        var_exists inp s.id ki pos = true ∧ k = (s.id, ki, pos.1, pos.2) := by
  unfold student_vars
  rw [List.mem_flatMap]
  constructor
  · rintro ⟨ki, hki, hk⟩
    rw [List.mem_range] at hki
    obtain ⟨pos, hpos, heq⟩ := List.mem_filterMap.mp hk
    rw [Option.ite_none_right_eq_some] at heq
    exact ⟨ki, pos, hki, hpos, heq.1, (Option.some_inj.mp heq.2).symm⟩
  · rintro ⟨ki, pos, hki, hpos, hex, rfl⟩
    refine ⟨ki, List.mem_range.mpr hki, List.mem_filterMap.mpr ⟨pos, hpos, ?_⟩⟩
    rw [Option.ite_none_right_eq_some]
    exact ⟨hex, rfl⟩

theorem mem_seat_vars {inp : Input} {ki : Nat} {pos : Int × Int} {k : VarKey} :
    k ∈ seat_vars inp ki pos ↔
      ∃ s ∈ inp.students, var_exists inp s.id ki pos = true ∧
        k = (s.id, ki, pos.1, pos.2) := by
  unfold seat_vars
  rw [List.mem_filterMap]
  constructor
  · rintro ⟨s, hs, heq⟩
    rw [Option.ite_none_right_eq_some] at heq
    exact ⟨s, hs, heq.1, (Option.some_inj.mp heq.2).symm⟩
  · rintro ⟨s, hs, hex, rfl⟩
    refine ⟨s, hs, ?_⟩
    rw [Option.ite_none_right_eq_some]
    exact ⟨hex, rfl⟩

theorem mem_assign_cons {inp : Input} {g : List VarKey} :
    g ∈ assign_cons inp ↔
      ∃ s ∈ inp.students, student_vars inp s ≠ [] ∧ g = student_vars inp s := by
  unfold assign_cons
  rw [List.mem_filterMap]
  constructor
  · rintro ⟨s, hs, heq⟩
    split at heq
    · simp at heq
    · next hne =>
      refine ⟨s, hs, ?_, (Option.some_inj.mp heq).symm⟩
      intro hnil
      rw [hnil] at hne
      simp at hne
  · rintro ⟨s, hs, hne, rfl⟩
    refine ⟨s, hs, ?_⟩
    rw [if_neg (fun h => hne (List.isEmpty_iff.mp h))]

theorem mem_seat_cons {inp : Input} {g : List VarKey} :
    g ∈ seat_cons inp ↔
      ∃ ki, ki < inp.rooms.length ∧
        ∃ pos ∈ (room_positions inp).getD ki [],
          seat_vars inp ki pos ≠ [] ∧ g = seat_vars inp ki pos := by
  unfold seat_cons
  rw [List.mem_flatMap]
  constructor
  · rintro ⟨ki, hki, hk⟩
    rw [List.mem_range] at hki
    obtain ⟨pos, hpos, heq⟩ := List.mem_filterMap.mp hk
    split at heq
    · simp at heq
    · next hne =>
      refine ⟨ki, hki, pos, hpos, ?_, (Option.some_inj.mp heq).symm⟩
      intro hnil
      rw [hnil] at hne
      simp at hne
  · rintro ⟨ki, hki, pos, hpos, hne, rfl⟩
    refine ⟨ki, List.mem_range.mpr hki, List.mem_filterMap.mpr ⟨pos, hpos, ?_⟩⟩
    rw [if_neg (fun h => hne (List.isEmpty_iff.mp h))]

theorem mem_link_cons {inp : Input} {kc : VarKey × Nat} :
    kc ∈ link_cons inp ↔
      ∃ ki, ki < inp.rooms.length ∧
        ∃ pos ∈ (room_positions inp).getD ki [],
          ∃ k ∈ seat_vars inp ki pos, kc = (k, ki) := by
  unfold link_cons
  rw [List.mem_flatMap]
  constructor
  · rintro ⟨ki, hki, hk⟩
    rw [List.mem_range] at hki
    obtain ⟨pos, hpos, hk2⟩ := List.mem_flatMap.mp hk
    obtain ⟨k, hkmem, heq⟩ := List.mem_map.mp hk2
    exact ⟨ki, hki, pos, hpos, k, hkmem, heq.symm⟩
  · rintro ⟨ki, hki, pos, hpos, k, hkmem, rfl⟩
    exact ⟨ki, List.mem_range.mpr hki,
      List.mem_flatMap.mpr ⟨pos, hpos, List.mem_map.mpr ⟨k, hkmem, rfl⟩⟩⟩

theorem mem_of_mem_orderedPairs {α : Type} {l : List α} {ab : α × α}
    (h : ab ∈ orderedPairs l) : ab.1 ∈ l ∧ ab.2 ∈ l := by
  induction l with
  | nil => simp [orderedPairs] at h
  | cons a rest ih =>
    rw [orderedPairs, List.mem_append] at h
    rcases h with h | h
    · obtain ⟨b, hb, heq⟩ := List.mem_map.mp h
      rw [← heq]
      exact ⟨List.mem_cons_self a rest, List.mem_cons_of_mem a hb⟩
    · obtain ⟨h1, h2⟩ := ih h
      exact ⟨List.mem_cons_of_mem a h1, List.mem_cons_of_mem a h2⟩

theorem orderedPairs_cover {α : Type} {l : List α} {a b : α}
    (ha : a ∈ l) (hb : b ∈ l) (hne : a ≠ b) :
    (a, b) ∈ orderedPairs l ∨ (b, a) ∈ orderedPairs l := by
  induction l with
  | nil => simp at ha
  | cons x rest ih =>
    rw [List.mem_cons] at ha hb
    rcases ha with rfl | ha
    · rcases hb with rfl | hb
      · exact absurd rfl hne
      · left
        rw [orderedPairs, List.mem_append]
        exact Or.inl (List.mem_map.mpr ⟨b, hb, rfl⟩)
    · rcases hb with rfl | hb
      · right
        rw [orderedPairs, List.mem_append]
        exact Or.inl (List.mem_map.mpr ⟨a, ha, rfl⟩)
      · rcases ih ha hb with h | h
        · left
          rw [orderedPairs, List.mem_append]
          exact Or.inr h
        · right
          rw [orderedPairs, List.mem_append]
          exact Or.inr h

theorem emitCapped_eq (cap : Nat) (cs : List (VarKey × VarKey)) :
    ∀ (n : Nat) (acc : List (VarKey × VarKey)),
      emitCapped cap (n, acc) cs =
        (n + min cs.length (cap - n), acc ++ cs.take (cap - n)) := by
  induction cs with
  | nil =>
    intro n acc
    simp [emitCapped]
  | cons c cs ih =>
    intro n acc
    by_cases h : n < cap
    · rw [show emitCapped cap (n, acc) (c :: cs) =
          emitCapped cap (if n < cap then (n + 1, acc ++ [c]) else (n, acc)) cs
          from rfl]
      rw [if_pos h, ih]
      have h1 : cap - n = (cap - (n + 1)) + 1 := by omega
      rw [h1, List.take_succ_cons]
      rw [Prod.mk.injEq]
      constructor
      · simp only [List.length_cons]
        omega
      · simp [List.append_assoc]
    · rw [show emitCapped cap (n, acc) (c :: cs) =
          emitCapped cap (if n < cap then (n + 1, acc ++ [c]) else (n, acc)) cs
          from rfl]
      rw [if_neg h, ih]
      have h0 : cap - n = 0 := by omega
      rw [h0]
      simp

theorem sep_fold_eq (inp : Input) :
    sep_fold inp =
      (min (sep_candidates inp).length MAX_SEPARATION_CONSTRAINTS,
       (sep_candidates inp).take MAX_SEPARATION_CONSTRAINTS) := by
  unfold sep_fold
  rw [emitCapped_eq]
  simp

theorem separation_count_eq (inp : Input) :
    separation_count inp =
      min (sep_candidates inp).length MAX_SEPARATION_CONSTRAINTS := by
  rw [separation_count, sep_fold_eq]

theorem sep_cons_eq (inp : Input) :
    sep_cons inp = (sep_candidates inp).take MAX_SEPARATION_CONSTRAINTS := by
  rw [sep_cons, sep_fold_eq]

theorem mem_sep_candidates {inp : Input} {pc : VarKey × VarKey} :
    pc ∈ sep_candidates inp ↔
      ∃ g ∈ exam_to_students inp.students, 2 ≤ g.2.length ∧
      ∃ ki, ki < inp.rooms.length ∧
      ∃ pq ∈ orderedPairs ((room_positions inp).getD ki []),
        is_adjacent pq.1 pq.2 = true ∧
      ∃ ss ∈ orderedPairs g.2,
        var_exists inp ss.1 ki pq.1 = true ∧
        var_exists inp ss.2 ki pq.2 = true ∧
        pc = ((ss.1, ki, pq.1.1, pq.1.2), (ss.2, ki, pq.2.1, pq.2.2)) := by
  unfold sep_candidates
  rw [List.mem_flatMap]
  constructor
  · rintro ⟨g, hg, hpc⟩
    split at hpc
    · simp at hpc
    · next hlen =>
      obtain ⟨ki, hki, hpc2⟩ := List.mem_flatMap.mp hpc
      rw [List.mem_range] at hki
      obtain ⟨pq, hpq, hpc3⟩ := List.mem_flatMap.mp hpc2
      split at hpc3
      · next hadj =>
        obtain ⟨ss, hss, heq⟩ := List.mem_filterMap.mp hpc3
        rw [Option.ite_none_right_eq_some, Bool.and_eq_true] at heq
        exact ⟨g, hg, by omega, ki, hki, pq, hpq, hadj, ss, hss,
          heq.1.1, heq.1.2, (Option.some_inj.mp heq.2).symm⟩
      · simp at hpc3
  · rintro ⟨g, hg, hlen, ki, hki, pq, hpq, hadj, ss, hss, hv1, hv2, rfl⟩
    refine ⟨g, hg, ?_⟩
    rw [if_neg (by omega)]
    refine List.mem_flatMap.mpr ⟨ki, List.mem_range.mpr hki, ?_⟩
    refine List.mem_flatMap.mpr ⟨pq, hpq, ?_⟩
    rw [if_pos hadj]
    refine List.mem_filterMap.mpr ⟨ss, hss, ?_⟩
    rw [Option.ite_none_right_eq_some]
    exact ⟨by rw [hv1, hv2]; rfl, rfl⟩

theorem mem_extract_student {inp : Input} {v : VarKey → Bool} {s : Student}
    {a : Assignment} :
    a ∈ extract_student inp v s ↔
      ∃ ki, ki < inp.rooms.length ∧ ∃ pos,
        ((room_positions inp).getD ki []).find? (fun q =>
          var_exists inp s.id ki q && v (s.id, ki, q.1, q.2)) = some pos ∧
        a = ⟨s.id, (inp.rooms.getD ki roomDefault).id, pos.1, pos.2⟩ := by
  unfold extract_student
  rw [List.mem_filterMap]
  constructor
  · rintro ⟨ki, hki, heq⟩
    rw [List.mem_range] at hki
    obtain ⟨pos, hfind, ha⟩ := Option.map_eq_some'.mp heq
    exact ⟨ki, hki, pos, hfind, ha.symm⟩
  · rintro ⟨ki, hki, pos, hfind, rfl⟩
    exact ⟨ki, List.mem_range.mpr hki,
      Option.map_eq_some'.mpr ⟨pos, hfind, rfl⟩⟩

/-! ## Claims C7 and C10 -/

/-- Claim C7: whenever the total usable-seat capacity is strictly below
the number of students, `solve` takes the pre-solve insufficient-capacity
exit — so the solver is never invoked — and returns an empty assignment
list for every possible solver response. -/
theorem C7_insufficient_capacity_pre (inp : Input)
    (h : total_capacity inp < inp.students.length) :
    presolve_error inp = some PreError.InsufficientCapacity ∧
    ∀ resp : CpSolverResponse, solve inp resp = [] := by
  have hp : presolve_error inp = some PreError.InsufficientCapacity := by
    unfold presolve_error
    rw [if_pos h]
  refine ⟨hp, fun resp => ?_⟩
  unfold solve
  rw [hp]

/-- Scenario D of the spec: five students of one exam, one 1x3 room. -/
def scenarioD : Input :=
  ⟨[⟨0, "x"⟩, ⟨1, "x"⟩, ⟨2, "x"⟩, ⟨3, "x"⟩, ⟨4, "x"⟩],
   [⟨"R1", 1, 3, false, false⟩], []⟩

theorem C7_insufficient_capacity_pre_witness :
    total_capacity scenarioD < scenarioD.students.length ∧
    (presolve_error scenarioD = some PreError.InsufficientCapacity ∧
     ∀ resp : CpSolverResponse, solve scenarioD resp = []) :=
  ⟨by decide, C7_insufficient_capacity_pre scenarioD (by decide)⟩

/-- Claim C10: a room with non-positive `rows` or `cols` is harmless: its
precomputed position list is empty (so it contributes zero capacity), no
decision variable exists over it, no emitted constraint mentions it, and
extraction never emits an assignment from it — the computation proceeds
as if the room had no seats. -/
theorem C10_nonpositive_room_harmless (inp : Input) (ki : Nat)
    (hdeg : (inp.rooms.getD ki roomDefault).rows ≤ 0 ∨
            (inp.rooms.getD ki roomDefault).cols ≤ 0) :
    (room_positions inp).getD ki [] = [] ∧
    (∀ sid pos, var_exists inp sid ki pos = false) ∧
    (∀ g ∈ assign_cons inp, ∀ k ∈ g, k.2.1 ≠ ki) ∧
    (∀ g ∈ seat_cons inp, ∀ k ∈ g, k.2.1 ≠ ki) ∧
    (∀ kc ∈ link_cons inp, kc.2 ≠ ki) ∧
    (∀ pc ∈ sep_cons inp, (pc.1).2.1 ≠ ki ∧ (pc.2).2.1 ≠ ki) ∧
    (∀ (v : VarKey → Bool) (s : Student) (a : Assignment),
      a ∈ extract_student inp v s →
      ∃ kj, kj < inp.rooms.length ∧ kj ≠ ki ∧
        (a.row, a.col) ∈ (room_positions inp).getD kj []) := by
  have hnil : (room_positions inp).getD ki [] = [] := by
    rw [room_positions_getD]
    exact precompute_positions_one_eq_nil hdeg
  have hvar : ∀ sid pos, var_exists inp sid ki pos = false := by
    intro sid pos
    unfold var_exists
    rw [hnil]
    simp
  have hseat_ne : ∀ (s : Student) (ki' : Nat) (pos : Int × Int),
      pos ∈ (room_positions inp).getD ki' [] →
      var_exists inp s.id ki' pos = true → ki' ≠ ki := by
    intro s ki' pos hpos hex heq
    subst heq
    rw [hnil] at hpos
    simp at hpos
  refine ⟨hnil, hvar, ?_, ?_, ?_, ?_, ?_⟩
  · intro g hg k hk
    obtain ⟨s, _, _, rfl⟩ := mem_assign_cons.mp hg
    obtain ⟨ki', pos, _, hpos, hex, rfl⟩ := mem_student_vars.mp hk
    exact hseat_ne s ki' pos hpos hex
  · intro g hg k hk
    obtain ⟨ki', _, pos, hpos, _, rfl⟩ := mem_seat_cons.mp hg
    obtain ⟨s, _, hex, rfl⟩ := mem_seat_vars.mp hk
    exact hseat_ne s ki' pos hpos hex
  · intro kc hkc
    obtain ⟨ki', _, pos, hpos, k, hkmem, rfl⟩ := mem_link_cons.mp hkc
    obtain ⟨s, _, hex, rfl⟩ := mem_seat_vars.mp hkmem
    exact hseat_ne s ki' pos hpos hex
  · intro pc hpc
    rw [sep_cons_eq] at hpc
    have hpc2 := List.Sublist.mem hpc (List.take_sublist _ _)
    obtain ⟨g, hg, hlen, ki', hki', pq, hpq, hadj, ss, hss, hv1, hv2, rfl⟩ :=
      mem_sep_candidates.mp hpc2
    have hne : ki' ≠ ki := by
      intro heq
      subst heq
      rw [hvar] at hv1
      simp at hv1
    exact ⟨hne, hne⟩
  · intro v s a ha
    obtain ⟨kj, hkj, pos, hfind, rfl⟩ := mem_extract_student.mp ha
    have hpos := List.mem_of_find?_eq_some hfind
    have hpred := List.find?_some hfind
    rw [Bool.and_eq_true] at hpred
    have hne : kj ≠ ki := by
      intro heq
      subst heq
      rw [hnil] at hpos
      simp at hpos
    refine ⟨kj, hkj, hne, ?_⟩
    show (pos.1, pos.2) ∈ _
    rw [Prod.mk.eta]
    exact hpos

/-- A degenerate room (negative row count) next to a normal room. -/
def inputC10 : Input :=
  ⟨[⟨0, "a"⟩], [⟨"R0", -3, 4, false, false⟩, ⟨"R1", 1, 2, false, false⟩], []⟩

theorem C10_nonpositive_room_harmless_witness :
    ((inputC10.rooms.getD 0 roomDefault).rows ≤ 0 ∨
     (inputC10.rooms.getD 0 roomDefault).cols ≤ 0) ∧
    ((room_positions inputC10).getD 0 [] = [] ∧
     (∀ sid pos, var_exists inputC10 sid 0 pos = false) ∧
     (∀ g ∈ assign_cons inputC10, ∀ k ∈ g, k.2.1 ≠ 0) ∧
     (∀ g ∈ seat_cons inputC10, ∀ k ∈ g, k.2.1 ≠ 0) ∧
     (∀ kc ∈ link_cons inputC10, kc.2 ≠ 0) ∧
     (∀ pc ∈ sep_cons inputC10, (pc.1).2.1 ≠ 0 ∧ (pc.2).2.1 ≠ 0) ∧
     (∀ (v : VarKey → Bool) (s : Student) (a : Assignment),
       a ∈ extract_student inputC10 v s →
       ∃ kj, kj < inputC10.rooms.length ∧ kj ≠ 0 ∧
         (a.row, a.col) ∈ (room_positions inputC10).getD kj [])) :=
  ⟨by decide, C10_nonpositive_room_harmless inputC10 0 (by decide)⟩

/-! ## Claim C1: the separation constraints only cover one orientation

For an adjacent position pair `(p, q)` with `i < j` and a student pair
`(si, sj)` with `si < sj`, solver.cpp:210-221 emits only
`x[si @ p] + x[sj @ q] <= 1`; the swapped pairing `x[si @ q] + x[sj @ p]`
is never constrained.  A response placing the earlier student on the
later seat of an adjacent pair therefore satisfies the whole model. -/

/-- Scenario A of the spec: two students of exam "math" in a 1x3 room. -/
def inputA : Input :=
  ⟨[⟨0, "math"⟩, ⟨1, "math"⟩], [⟨"R1", 1, 3, false, false⟩], []⟩

/-- Student 0 on seat (0,1), student 1 on seat (0,0): adjacent seats. -/
def valA : VarKey → Bool := fun k =>
  k = ((0 : Int), (0 : Nat), (0 : Int), (1 : Int)) ||
  k = ((1 : Int), (0 : Nat), (0 : Int), (0 : Int))

def respA : CpSolverResponse := ⟨.FEASIBLE, valA, fun _ => true⟩

/-- Claim C1 is violated by the code: on scenario A the response `respA`
satisfies every emitted constraint, the separation cap is far from
reached and nothing was truncated, yet `solve` returns the two same-exam
students of room R1 on seats (0,1) and (0,0), which are at Manhattan
distance exactly 1. -/
theorem C1_adjacent_same_exam_reachable :
    SatModel (build_model inputA) respA.value respA.yvalue ∧
    separation_count inputA = 2 ∧
    separation_count inputA < MAX_SEPARATION_CONSTRAINTS ∧
    (sep_candidates inputA).length = separation_count inputA ∧
    solve inputA respA = [⟨0, "R1", 0, 1⟩, ⟨1, "R1", 0, 0⟩] ∧
    inputA.students.map Student.exam = ["math", "math"] ∧
    is_adjacent (0, 1) (0, 0) = true := by
  refine ⟨?_, ?_, ?_, ?_, ?_, ?_, ?_⟩ <;> decide

/-! ## Claim C3: a student with no variable is dropped, not infeasible -/

/-- Student 0's exam "a" is restricted to the empty room list, so the
creation loop makes no variable for student 0; room R1 is 1x2. -/
def inputC3 : Input :=
  ⟨[⟨0, "a"⟩, ⟨1, "b"⟩], [⟨"R1", 1, 2, false, false⟩], [("a", [])]⟩

def valC3 : VarKey → Bool := fun k =>
  k = ((1 : Int), (0 : Nat), (0 : Int), (0 : Int))

def respC3 : CpSolverResponse := ⟨.OPTIMAL, valC3, fun _ => true⟩

/-- Claim C3 is false on the code: student 0 has no decision variable,
yet the built model is satisfiable (`valC3` satisfies every constraint:
the emptiness guard at solver.cpp:161 skipped student 0's exactly-once
constraint), and `solve` returns a non-empty assignment list that
silently omits student 0. -/
theorem C3_counterexample_feasible_omission :
    student_vars inputC3 ⟨0, "a"⟩ = [] ∧
    inputC3.students.get? 0 = some ⟨0, "a"⟩ ∧
    SatModel (build_model inputC3) valC3 (fun _ => true) ∧
    solve inputC3 respC3 = [⟨1, "R1", 0, 0⟩] ∧
    (∀ a ∈ solve inputC3 respC3, a.student_id ≠ 0) := by
  refine ⟨?_, ?_, ?_, ?_, ?_⟩ <;> decide

/-- Claim C3 amended: a student record for which no decision variable was
created is simply unconstrained — the non-emptiness guard skips its
exactly-once constraint, no emitted constraint mentions its id, and the
extraction loop never emits an assignment carrying its id — so the model
does not thereby become infeasible, and a successful solve silently
omits that student. -/
theorem C3_amended_unconstrained_student (inp : Input) (s : Student)
    (hvars : student_vars inp s = []) :
    (∀ g ∈ assign_cons inp, ∀ k ∈ g, k.1 ≠ s.id) ∧
    (∀ g ∈ seat_cons inp, ∀ k ∈ g, k.1 ≠ s.id) ∧
    (∀ kc ∈ link_cons inp, (kc.1).1 ≠ s.id) ∧
    (∀ pc ∈ sep_cons inp, (pc.1).1 ≠ s.id ∧ (pc.2).1 ≠ s.id) ∧
    (∀ v : VarKey → Bool, ∀ a ∈ extract inp v, a.student_id ≠ s.id) := by
  have hnovar : ∀ ki pos, ki < inp.rooms.length →
      pos ∈ (room_positions inp).getD ki [] →
      var_exists inp s.id ki pos = false := by
    intro ki pos hki hpos
    rcases Bool.eq_false_or_eq_true (var_exists inp s.id ki pos) with h | h
    · have hmem := mem_student_vars.mpr ⟨ki, pos, hki, hpos, h, rfl⟩
      rw [hvars] at hmem
      simp at hmem
    · exact h
  have hkey : ∀ (sid : Int) (ki : Nat) (pos : Int × Int),
      ki < inp.rooms.length → pos ∈ (room_positions inp).getD ki [] →
      var_exists inp sid ki pos = true → sid ≠ s.id := by
    intro sid ki pos hki hpos hex heq
    subst heq
    rw [hnovar ki pos hki hpos] at hex
    simp at hex
  refine ⟨?_, ?_, ?_, ?_, ?_⟩
  · intro g hg k hk
    obtain ⟨r, _, _, rfl⟩ := mem_assign_cons.mp hg
    obtain ⟨ki, pos, hki, hpos, hex, rfl⟩ := mem_student_vars.mp hk
    exact hkey r.id ki pos hki hpos hex
  · intro g hg k hk
    obtain ⟨ki, hki, pos, hpos, _, rfl⟩ := mem_seat_cons.mp hg
    obtain ⟨r, _, hex, rfl⟩ := mem_seat_vars.mp hk
    exact hkey r.id ki pos hki hpos hex
  · intro kc hkc
    obtain ⟨ki, hki, pos, hpos, k, hkmem, rfl⟩ := mem_link_cons.mp hkc
    obtain ⟨r, _, hex, rfl⟩ := mem_seat_vars.mp hkmem
    exact hkey r.id ki pos hki hpos hex
  · intro pc hpc
    rw [sep_cons_eq] at hpc
    have hpc2 := List.Sublist.mem hpc (List.take_sublist _ _)
    obtain ⟨g, hg, hlen, ki, hki, pq, hpq, hadj, ss, hss, hv1, hv2, rfl⟩ :=
      mem_sep_candidates.mp hpc2
    obtain ⟨hp1, hp2⟩ := mem_of_mem_orderedPairs hpq
    exact ⟨hkey ss.1 ki pq.1 hki hp1 hv1, hkey ss.2 ki pq.2 hki hp2 hv2⟩
  · intro v a ha
    obtain ⟨r, hr, ha2⟩ := List.mem_flatMap.mp ha
    obtain ⟨ki, hki, pos, hfind, rfl⟩ := mem_extract_student.mp ha2
    have hpos := List.mem_of_find?_eq_some hfind
    have hpred := List.find?_some hfind
    rw [Bool.and_eq_true] at hpred
    exact hkey r.id ki pos hki hpos hpred.1

theorem C3_amended_unconstrained_student_witness :
    student_vars inputC3 ⟨0, "a"⟩ = [] ∧
    ((∀ g ∈ assign_cons inputC3, ∀ k ∈ g, k.1 ≠ (0 : Int)) ∧
     (∀ g ∈ seat_cons inputC3, ∀ k ∈ g, k.1 ≠ (0 : Int)) ∧
     (∀ kc ∈ link_cons inputC3, (kc.1).1 ≠ (0 : Int)) ∧
     (∀ pc ∈ sep_cons inputC3, (pc.1).1 ≠ (0 : Int) ∧ (pc.2).1 ≠ (0 : Int)) ∧
     (∀ v : VarKey → Bool, ∀ a ∈ extract inputC3 v, a.student_id ≠ (0 : Int))) :=
  ⟨by decide, C3_amended_unconstrained_student inputC3 ⟨0, "a"⟩ (by decide)⟩

/-! ## Claim C6: extraction has no exactly-once invariant check -/

/-- One student, two 1x1 rooms. -/
def inputC6 : Input :=
  ⟨[⟨0, "a"⟩], [⟨"R1", 1, 1, false, false⟩, ⟨"R2", 1, 1, false, false⟩], []⟩

/-- A (buggy-solver) response valuing every variable true. -/
def valC6 : VarKey → Bool := fun _ => true

def respC6 : CpSolverResponse := ⟨.FEASIBLE, valC6, fun _ => true⟩

/-- Claim C6 is false on the code: with status FEASIBLE and student 0
having two true decision variables (one per room) — not exactly one —
extraction does not fail with anything: the `break` at solver.cpp:270
only leaves the position loop, so `solve` returns a two-element
assignment list for the single student. -/
theorem C6_counterexample_no_invariant_check :
    (student_vars inputC6 ⟨0, "a"⟩).countP valC6 = 2 ∧
    respC6.status = CpSolverStatus.FEASIBLE ∧
    solve inputC6 respC6 = [⟨0, "R1", 0, 0⟩, ⟨0, "R2", 0, 0⟩] := by
  refine ⟨?_, ?_, ?_⟩ <;> decide

theorem length_filterMap_eq_countP {α β : Type} (f : α → Option β)
    (l : List α) :
    (l.filterMap f).length = l.countP (fun a => (f a).isSome) := by
  induction l with
  | nil => rfl
  | cons a l ih =>
    rw [List.filterMap_cons, List.countP_cons]
    cases h : f a
    · simp [h, ih]
    · simp [h, ih]

/-- Claim C6 amended: extraction performs no invariant check at all: for
every response, each student record yields exactly one assignment per
room in which the record has a true existing variable (the first such
position in room order) — in particular zero assignments when no
variable is true and several when several rooms hold a true variable —
and no error value exists in the code to signal the discrepancy. -/
theorem C6_amended_per_room_extraction (inp : Input) (v : VarKey → Bool)
    (s : Student) :
    (extract_student inp v s).length =
      (List.range inp.rooms.length).countP (fun ki =>
        (((room_positions inp).getD ki []).find? (fun q =>
          var_exists inp s.id ki q && v (s.id, ki, q.1, q.2))).isSome) := by
  unfold extract_student
  rw [length_filterMap_eq_countP]
  congr 1
  funext ki
  rw [Option.isSome_map']

/-! ## Claim C9: contract of the extraction loop -/

theorem countP_le_one_of_pairwise {α : Type} {p : α → Bool} {l : List α}
    (h : l.Pairwise (fun a b => ¬(p a = true ∧ p b = true))) :
    l.countP p ≤ 1 := by
  induction l with
  | nil => simp
  | cons a l ih =>
    rw [List.countP_cons]
    rcases List.pairwise_cons.mp h with ⟨ha, hl⟩
    by_cases hp : p a = true
    · have h0 : l.countP p = 0 := by
        rw [List.countP_eq_zero]
        intro b hb hpb
        exact ha b hb ⟨hp, hpb⟩
      rw [h0, if_pos hp]
    · rw [if_neg hp]
      have := ih hl
      omega

/-- Claim C9: the extraction loop returns the per-student blocks in input
order, each block carrying that student's id; within a block there is at
most one assignment per room (the `break` leaves only the position
loop); every emitted assignment names an input room, sits at a usable
precomputed position of that room, corresponds to an existing variable
that is true in the response, and is the first true position of its room
in row-major order; and whatever the status, `solve` returns either this
extraction or the empty list. -/
theorem C9_extraction_contract (inp : Input) (resp : CpSolverResponse)
    (hnodup : (inp.rooms.map Room.id).Nodup) :
    extract inp resp.value =
      inp.students.flatMap (extract_student inp resp.value) ∧
    (∀ s a, a ∈ extract_student inp resp.value s → a.student_id = s.id) ∧
    (∀ s (rid : String),
      (extract_student inp resp.value s).countP
        (fun a => a.room_id == rid) ≤ 1) ∧
    (∀ s a, a ∈ extract_student inp resp.value s →
      ∃ ki, ki < inp.rooms.length ∧
        a.room_id = (inp.rooms.getD ki roomDefault).id ∧
        (a.row, a.col) ∈ (room_positions inp).getD ki [] ∧
        usable (inp.rooms.getD ki roomDefault) (a.row, a.col) ∧
        var_exists inp s.id ki (a.row, a.col) = true ∧
        resp.value (s.id, ki, a.row, a.col) = true ∧
        ∃ l1 l2, (room_positions inp).getD ki [] = l1 ++ (a.row, a.col) :: l2 ∧
          ∀ q ∈ l1,
            ¬(var_exists inp s.id ki q &&
              resp.value (s.id, ki, q.1, q.2)) = true) ∧
    (solve inp resp = [] ∨ solve inp resp = extract inp resp.value) := by
  refine ⟨rfl, ?_, ?_, ?_, ?_⟩
  · intro s a ha
    obtain ⟨ki, hki, pos, hfind, rfl⟩ := mem_extract_student.mp ha
    rfl
  · intro s rid
    unfold extract_student
    apply countP_le_one_of_pairwise
    rw [List.pairwise_filterMap]
    refine (List.pairwise_lt_range _).imp_of_mem ?_
    intro ki ki' hki hki' hlt a ha a' ha'
    rw [List.mem_range] at hki hki'
    obtain ⟨pos, hp, rfl⟩ := Option.map_eq_some'.mp (Option.mem_def.mp ha)
    obtain ⟨pos', hp', rfl⟩ := Option.map_eq_some'.mp (Option.mem_def.mp ha')
    rintro ⟨h1, h2⟩
    rw [beq_iff_eq] at h1 h2
    have hid : (inp.rooms.getD ki roomDefault).id =
        (inp.rooms.getD ki' roomDefault).id := by
      rw [show (⟨_, _, pos.1, pos.2⟩ : Assignment).room_id =
        (inp.rooms.getD ki roomDefault).id from rfl] at h1
      rw [show (⟨_, _, pos'.1, pos'.2⟩ : Assignment).room_id =
        (inp.rooms.getD ki' roomDefault).id from rfl] at h2
      rw [h1, h2]
    have hid2 : (inp.rooms.map Room.id).getD ki roomDefault.id =
        (inp.rooms.map Room.id).getD ki' roomDefault.id := by
      rw [List.getD_map, List.getD_map]
      exact hid
    rw [List.getD_eq_getElem _ _ (by rw [List.length_map]; exact hki),
        List.getD_eq_getElem _ _ (by rw [List.length_map]; exact hki')] at hid2
    have hij := (hnodup.getElem_inj_iff).mp hid2
    omega
  · intro s a ha
    obtain ⟨ki, hki, pos, hfind, rfl⟩ := mem_extract_student.mp ha
    rw [List.find?_eq_some] at hfind
    obtain ⟨hpred, l1, l2, hsplit, hbefore⟩ := hfind
    rw [Bool.and_eq_true] at hpred
    have hmem : pos ∈ (room_positions inp).getD ki [] := by
      rw [hsplit]
      simp
    refine ⟨ki, hki, rfl, ?_, ?_, ?_, ?_, l1, l2, ?_, ?_⟩
    · show (pos.1, pos.2) ∈ _
      rw [Prod.mk.eta]
      exact hmem
    · have h2 : pos ∈ precompute_positions_one (inp.rooms.getD ki roomDefault) := by
        rw [← room_positions_getD]
        exact hmem
      have := mem_precompute_positions_one.mp h2
      show usable _ (pos.1, pos.2)
      rw [Prod.mk.eta]
      exact this
    · show var_exists inp s.id ki (pos.1, pos.2) = true
      rw [Prod.mk.eta]
      exact hpred.1
    · exact hpred.2
    · show _ = l1 ++ (pos.1, pos.2) :: l2
      rw [Prod.mk.eta]
      exact hsplit
    · intro q hq
      have := hbefore q hq
      simp only [Bool.not_eq_true'] at this
      rw [this]
      exact Bool.false_ne_true
  · unfold solve
    cases presolve_error inp with
    | some e => exact Or.inl rfl
    | none =>
      by_cases hst : resp.status = CpSolverStatus.OPTIMAL ∨
          resp.status = CpSolverStatus.FEASIBLE
      · rw [if_pos hst]
        exact Or.inr rfl
      · rw [if_neg hst]
        exact Or.inl rfl

theorem C9_extraction_contract_witness :
    (inputA.rooms.map Room.id).Nodup ∧
    (extract inputA respA.value =
       inputA.students.flatMap (extract_student inputA respA.value) ∧
     (∀ s a, a ∈ extract_student inputA respA.value s →
       a.student_id = s.id) ∧
     (∀ s (rid : String),
       (extract_student inputA respA.value s).countP
         (fun a => a.room_id == rid) ≤ 1) ∧
     (∀ s a, a ∈ extract_student inputA respA.value s →
       ∃ ki, ki < inputA.rooms.length ∧
         a.room_id = (inputA.rooms.getD ki roomDefault).id ∧
         (a.row, a.col) ∈ (room_positions inputA).getD ki [] ∧
         usable (inputA.rooms.getD ki roomDefault) (a.row, a.col) ∧
         var_exists inputA s.id ki (a.row, a.col) = true ∧
         respA.value (s.id, ki, a.row, a.col) = true ∧
         ∃ l1 l2,
           (room_positions inputA).getD ki [] = l1 ++ (a.row, a.col) :: l2 ∧
           ∀ q ∈ l1,
             ¬(var_exists inputA s.id ki q &&
               respA.value (s.id, ki, q.1, q.2)) = true) ∧
     (solve inputA respA = [] ∨
      solve inputA respA = extract inputA respA.value)) :=
  ⟨by decide, C9_extraction_contract inputA respA (by decide)⟩

/-! ## Claim C2: there is no restricted-capacity pre-check -/

/-- The seat pool named by the spec's restricted-capacity formula (spec
section 4.2): the positions of the rooms listed for the exam, tagged with
their room index.  Written from the spec's words, to state the claim's
antecedent `Σ_{k : rooms[k].id ∈ restrictions[e]} |positions[k]| <
|exam_students[e]|`. -/
def allowed_seats (inp : Input) (allowed : List String) :
    List (Nat × Int × Int) :=
  (List.range inp.rooms.length).flatMap (fun ki =>
    if (inp.rooms.getD ki roomDefault).id ∈ allowed then
      ((room_positions inp).getD ki []).map (fun p => (ki, p.1, p.2))
    else [])

/-- Total number of usable positions of the rooms listed for the exam. -/
def restricted_capacity (inp : Input) (allowed : List String) : Nat :=
  (allowed_seats inp allowed).length

theorem mem_allowed_seats {inp : Input} {allowed : List String}
    {ki : Nat} {r c : Int} :
    (ki, r, c) ∈ allowed_seats inp allowed ↔
      ki < inp.rooms.length ∧
      (inp.rooms.getD ki roomDefault).id ∈ allowed ∧
      (r, c) ∈ (room_positions inp).getD ki [] := by
  unfold allowed_seats
  rw [List.mem_flatMap]
  constructor
  · rintro ⟨kj, hkj, ht⟩
    rw [List.mem_range] at hkj
    split at ht
    · next hin =>
      obtain ⟨p, hp, heq⟩ := List.mem_map.mp ht
      simp only [Prod.mk.injEq] at heq
      obtain ⟨rfl, h2, h3⟩ := heq
      subst h2
      subst h3
      exact ⟨hkj, hin, by rw [Prod.mk.eta]; exact hp⟩
    · simp at ht
  · rintro ⟨h1, h2, h3⟩
    refine ⟨ki, List.mem_range.mpr h1, ?_⟩
    rw [if_pos h2]
    exact List.mem_map.mpr ⟨(r, c), h3, rfl⟩

theorem eq_of_map_nodup {α β : Type} {f : α → β} {l : List α}
    (h : (l.map f).Nodup) {a b : α} (ha : a ∈ l) (hb : b ∈ l)
    (hf : f a = f b) : a = b := by
  obtain ⟨i, hi, rfl⟩ := List.mem_iff_getElem.mp ha
  obtain ⟨j, hj, rfl⟩ := List.mem_iff_getElem.mp hb
  have hmi : i < (l.map f).length := by rw [List.length_map]; exact hi
  have hmj : j < (l.map f).length := by rw [List.length_map]; exact hj
  have heq : (l.map f)[i] = (l.map f)[j] := by
    rw [List.getElem_map, List.getElem_map]
    exact hf
  have hij := (h.getElem_inj_iff).mp heq
  subst hij
  rfl

theorem two_le_countP_of_mem {α : Type} {p : α → Bool} {l : List α} {a b : α}
    (ha : a ∈ l) (hb : b ∈ l) (hne : a ≠ b)
    (hpa : p a = true) (hpb : p b = true) :
    2 ≤ l.countP p := by
  induction l with
  | nil => simp at ha
  | cons x l ih =>
    rw [List.countP_cons]
    rw [List.mem_cons] at ha hb
    rcases ha with rfl | ha
    · rcases hb with rfl | hb
      · exact absurd rfl hne
      · have h1 : 0 < l.countP p := List.countP_pos_iff.mpr ⟨b, hb, hpb⟩
        rw [if_pos hpa]
        omega
    · rcases hb with rfl | hb
      · have h1 : 0 < l.countP p := List.countP_pos_iff.mpr ⟨a, ha, hpa⟩
        rw [if_pos hpb]
        omega
      · have := ih ha hb
        omega

/-- The first variable of a student that the response values true; used
as the choice function of the pigeonhole argument below. -/
def chosen_var (inp : Input) (v : VarKey → Bool) (s : Student) :
    Option VarKey :=
  (student_vars inp s).find? (fun k => v k)

/-- The (room index, row, column) seat of `chosen_var`. -/
def chosen_seat (inp : Input) (v : VarKey → Bool) (s : Student) :
    Nat × Int × Int :=
  match chosen_var inp v s with
  | some (_, ki, r, c) => (ki, r, c)
  | none => (0, 0, 0)

/-- Claim C2 amended: the source performs no restricted-capacity
pre-solve check — the only pre-solve rejection tests total capacity — so
an input whose restricted exam has fewer allowed seats than students
(with student ids unique, at least one allowed seat, and sufficient total
capacity) passes pre-solve and reaches the solver; what actually rules
it out is that the built model is unsatisfiable: every student of the
exam needs exactly one of their variables true, all their variables live
on allowed seats, and each seat admits at most one true variable, so by
pigeonhole no valuation satisfies the model. -/
theorem C2_amended_no_precheck_model_unsat (inp : Input) (e : String)
    (allowed : List String)
    (hres : lookupRestriction inp.restrictions e = some allowed)
    (hids : (inp.students.map Student.id).Nodup)
    (hpos : 0 < restricted_capacity inp allowed)
    (hlt : restricted_capacity inp allowed <
      (inp.students.filter (fun s => s.exam == e)).length)
    (hcap : inp.students.length ≤ total_capacity inp) :
    presolve_error inp = none ∧
    ∀ (v : VarKey → Bool) (yv : Nat → Bool),
      ¬ SatModel (build_model inp) v yv := by
  constructor
  · unfold presolve_error
    rw [if_neg (by omega)]
  · intro v yv hsat
    unfold SatModel at hsat
    obtain ⟨hassign, hseat, -, -⟩ := hsat
    set Se := inp.students.filter (fun s => s.exam == e) with hSe
    obtain ⟨t0, ht0⟩ := List.exists_mem_of_length_pos hpos
    obtain ⟨ki0, r0, c0⟩ := t0
    obtain ⟨hki0, hin0, hp0⟩ := mem_allowed_seats.mp ht0
    have hSe_mem : ∀ s ∈ Se, s ∈ inp.students ∧ s.exam = e := by
      intro s hs
      rw [hSe, List.mem_filter] at hs
      refine ⟨hs.1, ?_⟩
      have := hs.2
      rwa [beq_iff_eq] at this
    have hvar0 : ∀ s ∈ Se, var_exists inp s.id ki0 (r0, c0) = true := by
      intro s hs
      obtain ⟨hsmem, hse⟩ := hSe_mem s hs
      unfold var_exists
      rw [Bool.and_eq_true, Bool.and_eq_true]
      refine ⟨⟨by rw [decide_eq_true_eq]; exact hki0, ?_⟩, ?_⟩
      · rw [List.any_eq_true]
        refine ⟨s, hsmem, ?_⟩
        rw [Bool.and_eq_true]
        refine ⟨beq_self_eq_true s.id, ?_⟩
        unfold room_allowed
        simp only [hse, hres]
        rw [List.contains_iff_exists_mem_beq]
        exact ⟨_, hin0, beq_self_eq_true _⟩
      · rw [List.contains_iff_exists_mem_beq]
        exact ⟨(r0, c0), hp0, beq_self_eq_true _⟩
    have hvars_ne : ∀ s ∈ Se, student_vars inp s ≠ [] := by
      intro s hs
      exact List.ne_nil_of_mem
        (mem_student_vars.mpr ⟨ki0, (r0, c0), hki0, hp0, hvar0 s hs, rfl⟩)
    have hchosen : ∀ s ∈ Se, ∃ k, chosen_var inp v s = some k := by
      intro s hs
      have hmem : student_vars inp s ∈ assign_cons inp :=
        mem_assign_cons.mpr ⟨s, (hSe_mem s hs).1, hvars_ne s hs, rfl⟩
      have h1 : (student_vars inp s).countP v = 1 := hassign _ hmem
      obtain ⟨k, hk, hvk⟩ := List.countP_pos_iff.mp (by omega :
        0 < (student_vars inp s).countP v)
      have h2 := List.find?_isSome.mpr ⟨k, hk, hvk⟩
      rw [Option.isSome_iff_exists] at h2
      unfold chosen_var
      exact h2
    have hchosen_props : ∀ s ∈ Se, ∀ k, chosen_var inp v s = some k →
        ∃ ki p, k = (s.id, ki, p.1, p.2) ∧ ki < inp.rooms.length ∧
          p ∈ (room_positions inp).getD ki [] ∧
          var_exists inp s.id ki p = true ∧ v k = true := by
      intro s hs k hk
      unfold chosen_var at hk
      have hvk : v k = true := List.find?_some hk
      obtain ⟨ki, p, hki, hp, hex, rfl⟩ :=
        mem_student_vars.mp (List.mem_of_find?_eq_some hk)
      exact ⟨ki, p, rfl, hki, hp, hex, hvk⟩
    have hallowed : ∀ s ∈ Se, ∀ ki (p : Int × Int),
        var_exists inp s.id ki p = true →
        (inp.rooms.getD ki roomDefault).id ∈ allowed := by
      intro s hs ki p hex
      obtain ⟨hsmem, hse⟩ := hSe_mem s hs
      unfold var_exists at hex
      rw [Bool.and_eq_true, Bool.and_eq_true] at hex
      obtain ⟨⟨-, hany⟩, -⟩ := hex
      rw [List.any_eq_true] at hany
      obtain ⟨r, hrmem, hr⟩ := hany
      rw [Bool.and_eq_true] at hr
      obtain ⟨hid, hallow⟩ := hr
      rw [beq_iff_eq] at hid
      have hrs : r = s := eq_of_map_nodup hids hrmem hsmem hid
      subst hrs
      unfold room_allowed at hallow
      simp only [hse, hres] at hallow
      rw [List.contains_iff_exists_mem_beq] at hallow
      obtain ⟨x, hx, hbx⟩ := hallow
      rw [beq_iff_eq] at hbx
      rw [hbx]
      exact hx
    have hdistinct : ∀ a ∈ Se, ∀ b ∈ Se, a.id ≠ b.id →
        chosen_seat inp v a ≠ chosen_seat inp v b := by
      intro a ha b hb hne heq
      obtain ⟨ka, hka⟩ := hchosen a ha
      obtain ⟨kb, hkb⟩ := hchosen b hb
      obtain ⟨kia, pa, hkaeq, hkia, hpa, hexa, hva⟩ :=
        hchosen_props a ha ka hka
      obtain ⟨kib, pb, hkbeq, hkib, hpb, hexb, hvb⟩ :=
        hchosen_props b hb kb hkb
      have hsa : chosen_seat inp v a = (kia, pa.1, pa.2) := by
        unfold chosen_seat
        rw [hka, hkaeq]
      have hsb : chosen_seat inp v b = (kib, pb.1, pb.2) := by
        unfold chosen_seat
        rw [hkb, hkbeq]
      rw [hsa, hsb] at heq
      simp only [Prod.mk.injEq] at heq
      obtain ⟨h1, h2, h3⟩ := heq
      subst h1
      have hpp : pa = pb := by
        rw [Prod.ext_iff]
        exact ⟨h2, h3⟩
      subst hpp
      have hka_mem : ka ∈ seat_vars inp kia pa := by
        rw [hkaeq]
        exact mem_seat_vars.mpr ⟨a, (hSe_mem a ha).1, hexa, rfl⟩
      have hkb_mem : kb ∈ seat_vars inp kia pa := by
        rw [hkbeq]
        exact mem_seat_vars.mpr ⟨b, (hSe_mem b hb).1, hexb, rfl⟩
      have hne_k : ka ≠ kb := by
        rw [hkaeq, hkbeq]
        intro hc
        simp only [Prod.mk.injEq] at hc
        exact hne hc.1
      have h2c : 2 ≤ (seat_vars inp kia pa).countP v :=
        two_le_countP_of_mem hka_mem hkb_mem hne_k hva hvb
      have h1c := hseat _ (mem_seat_cons.mpr
        ⟨kia, hkia, pa, hpa, List.ne_nil_of_mem hka_mem, rfl⟩)
      omega
    have hSe_ids : (Se.map Student.id).Nodup :=
      List.Sublist.nodup
        (List.Sublist.map Student.id (List.filter_sublist _)) hids
    have hSe_pairwise : Se.Pairwise (fun a b => a.id ≠ b.id) :=
      List.pairwise_map.mp hSe_ids
    have hmap_nodup : (Se.map (chosen_seat inp v)).Nodup := by
      show List.Pairwise (fun a b => a ≠ b) (Se.map (chosen_seat inp v))
      rw [List.pairwise_map]
      exact hSe_pairwise.imp_of_mem
        (fun {a b} ha hb hne => hdistinct a ha b hb hne)
    have hsubset : ∀ t ∈ Se.map (chosen_seat inp v),
        t ∈ allowed_seats inp allowed := by
      intro t ht
      obtain ⟨s, hs, rfl⟩ := List.mem_map.mp ht
      obtain ⟨k, hk⟩ := hchosen s hs
      obtain ⟨ki, p, hkeq, hki, hp, hex, -⟩ := hchosen_props s hs k hk
      have hseat_eq : chosen_seat inp v s = (ki, p.1, p.2) := by
        unfold chosen_seat
        rw [hk, hkeq]
      rw [hseat_eq, mem_allowed_seats]
      refine ⟨hki, hallowed s hs ki p hex, ?_⟩
      rw [Prod.mk.eta]
      exact hp
    have hle : Se.length ≤ (allowed_seats inp allowed).length := by
      have h1 := (List.Nodup.subperm hmap_nodup hsubset).length_le
      rw [List.length_map] at h1
      exact h1
    rw [restricted_capacity] at hlt
    omega

/-- Exam "a" restricted to R1 (one seat) with two students; room R2
keeps the total capacity sufficient. -/
def inputC2 : Input :=
  ⟨[⟨0, "a"⟩, ⟨1, "a"⟩],
   [⟨"R1", 1, 1, false, false⟩, ⟨"R2", 1, 5, false, false⟩],
   [("a", ["R1"])]⟩

/-- Claim C2 is false on the code: on `inputC2` the restricted exam "a"
has 1 allowed seat for 2 students, yet pre-solve passes (`presolve_error`
is `none`, so control reaches model building and the solver call instead
of failing with a restricted-capacity error). -/
theorem C2_counterexample_reaches_solver :
    lookupRestriction inputC2.restrictions "a" = some ["R1"] ∧
    restricted_capacity inputC2 ["R1"] = 1 ∧
    (inputC2.students.filter (fun s => s.exam == "a")).length = 2 ∧
    presolve_error inputC2 = none := by
  refine ⟨?_, ?_, ?_, ?_⟩ <;> decide

theorem C2_amended_no_precheck_model_unsat_witness :
    (lookupRestriction inputC2.restrictions "a" = some ["R1"] ∧
     (inputC2.students.map Student.id).Nodup ∧
     0 < restricted_capacity inputC2 ["R1"] ∧
     restricted_capacity inputC2 ["R1"] <
       (inputC2.students.filter (fun s => s.exam == "a")).length ∧
     inputC2.students.length ≤ total_capacity inputC2) ∧
    (presolve_error inputC2 = none ∧
     ∀ (v : VarKey → Bool) (yv : Nat → Bool),
       ¬ SatModel (build_model inputC2) v yv) :=
  ⟨⟨by decide, by decide, by decide, by decide, by decide⟩,
   C2_amended_no_precheck_model_unsat inputC2 "a" ["R1"]
     (by decide) (by decide) (by decide) (by decide) (by decide)⟩

/-! ## Claim C4: the cap truncates emission silently

For the 317-student input below the loop nest of solver.cpp:194-229
would emit 317*316/2 = 50086 separation constraints; emission stops at
50 000 and the only trace is the count printed at solver.cpp:231 — the
return type `vector<Assignment>` carries no diagnostics and no
`ConstraintCapHit` (or any other) flag exists anywhere in the source. -/

theorem exam_groups_aux (e : String) : ∀ (l : List Student) (acc : List Int),
    (∀ s ∈ l, s.exam = e) →
    List.foldl add_student [(e, acc)] l = [(e, acc ++ l.map Student.id)] := by
  intro l
  induction l with
  | nil =>
    intro acc h
    simp
  | cons s l ih =>
    intro acc h
    rw [List.foldl_cons]
    have hse : s.exam = e := h s (List.mem_cons_self _ _)
    have hstep : add_student [(e, acc)] s = [(e, acc ++ [s.id])] := by
      unfold add_student
      rw [if_pos ?_]
      · simp [hse]
      · rw [List.any_eq_true]
        refine ⟨(e, acc), List.mem_cons_self _ _, ?_⟩
        rw [beq_iff_eq]
        exact hse.symm
    rw [hstep, ih (acc ++ [s.id]) (fun t ht => h t (List.mem_cons_of_mem _ ht))]
    rw [List.append_assoc]
    rfl

theorem exam_to_students_const (e : String) (l : List Student)
    (hne : l ≠ []) (h : ∀ t ∈ l, t.exam = e) :
    exam_to_students l = [(e, l.map Student.id)] := by
  cases l with
  | nil => exact absurd rfl hne
  | cons s l =>
    unfold exam_to_students
    rw [List.foldl_cons]
    have hse : s.exam = e := h s (List.mem_cons_self _ _)
    have hstep : add_student [] s = [(e, [s.id])] := by
      unfold add_student
      rw [if_neg (by simp)]
      rw [hse]
      rfl
    rw [hstep, exam_groups_aux e l [s.id]
      (fun t ht => h t (List.mem_cons_of_mem _ ht))]
    rfl

theorem two_mul_length_orderedPairs {α : Type} (l : List α) :
    2 * (orderedPairs l).length = l.length * (l.length - 1) := by
  induction l with
  | nil => rfl
  | cons a rest ih =>
    rw [orderedPairs, List.length_append, List.length_map, List.length_cons]
    have hn : (rest.length + 1) * (rest.length + 1 - 1) =
        2 * rest.length + rest.length * (rest.length - 1) := by
      cases hrl : rest.length with
      | zero => rfl
      | succ m =>
        simp only [Nat.succ_sub_one]
        ring
    omega

/-- 317 students with ids 0..316, all taking exam "e". -/
def bigStudents : List Student :=
  (List.range 317).map (fun (i : Nat) => ⟨(i : Int), "e"⟩)

/-- One 1x2 room: a single adjacent seat pair, so the loop nest visits
one separation candidate per student pair. -/
def bigInput : Input := ⟨bigStudents, [⟨"R1", 1, 2, false, false⟩], []⟩

theorem bigGroups : exam_to_students bigInput.students =
    [("e", bigStudents.map Student.id)] := by
  show exam_to_students bigStudents = _
  refine exam_to_students_const "e" bigStudents ?_ ?_
  · unfold bigStudents
    simp
  · intro t ht
    obtain ⟨i, hi, rfl⟩ := List.mem_map.mp ht
    rfl

theorem big_var_exists (a : Int) (ha : a ∈ bigStudents.map Student.id)
    (p : Int × Int) (hp : p ∈ (room_positions bigInput).getD 0 []) :
    var_exists bigInput a 0 p = true := by
  unfold var_exists
  rw [Bool.and_eq_true, Bool.and_eq_true]
  refine ⟨⟨by rw [decide_eq_true_eq]; decide, ?_⟩, ?_⟩
  · rw [List.any_eq_true]
    obtain ⟨s, hs, rfl⟩ := List.mem_map.mp ha
    refine ⟨s, hs, ?_⟩
    rw [Bool.and_eq_true]
    refine ⟨beq_self_eq_true s.id, ?_⟩
    have he : s.exam = "e" := by
      obtain ⟨i, hi, rfl⟩ := List.mem_map.mp hs
      rfl
    rw [he]
    rfl
  · rw [List.contains_iff_exists_mem_beq]
    exact ⟨p, hp, beq_self_eq_true p⟩

theorem big_sep_candidates_length :
    (sep_candidates bigInput).length =
      (orderedPairs (bigStudents.map Student.id)).length := by
  unfold sep_candidates
  rw [bigGroups]
  rw [List.flatMap_cons, List.flatMap_nil, List.append_nil]
  rw [if_neg (by
    show ¬(bigStudents.map Student.id).length < 2
    rw [List.length_map]
    rw [show bigStudents.length = 317 from by
      unfold bigStudents; rw [List.length_map, List.length_range]]
    omega)]
  rw [show List.range bigInput.rooms.length = [0] from rfl]
  rw [List.flatMap_cons, List.flatMap_nil, List.append_nil]
  rw [show (room_positions bigInput).getD 0 [] =
      [((0 : Int), (0 : Int)), ((0 : Int), (1 : Int))] from rfl]
  rw [show orderedPairs [((0 : Int), (0 : Int)), ((0 : Int), (1 : Int))] =
      [(((0 : Int), (0 : Int)), ((0 : Int), (1 : Int)))] from rfl]
  rw [List.flatMap_cons, List.flatMap_nil, List.append_nil]
  rw [if_pos (by decide)]
  rw [length_filterMap_eq_countP]
  rw [List.countP_eq_length]
  intro ss hss
  obtain ⟨h1, h2⟩ := mem_of_mem_orderedPairs hss
  rw [if_pos ?_]
  · rfl
  · rw [Bool.and_eq_true]
    have e1 := big_var_exists ss.1 h1 ((0 : Int), (0 : Int)) (by decide)
    have e2 := big_var_exists ss.2 h2 ((0 : Int), (1 : Int)) (by decide)
    exact ⟨e1, e2⟩

/-- Claim C4 evaluated at the failing input: the loop nest has 50086
candidate separation constraints, emission halts at exactly the cap of
50 000 (truncating 86 candidates), and the emitted model keeps only the
first 50 000 — all without any cap-hit flag existing in the code's
output, whose type is a plain assignment list. -/
theorem C4_cap_hit_is_silent :
    separation_count bigInput = MAX_SEPARATION_CONSTRAINTS ∧
    MAX_SEPARATION_CONSTRAINTS < (sep_candidates bigInput).length ∧
    (sep_cons bigInput).length = MAX_SEPARATION_CONSTRAINTS := by
  have hids : (bigStudents.map Student.id).length = 317 := by
    unfold bigStudents
    rw [List.length_map, List.length_map, List.length_range]
  have hlen : (sep_candidates bigInput).length = 50086 := by
    rw [big_sep_candidates_length]
    have h2 := two_mul_length_orderedPairs (bigStudents.map Student.id)
    rw [hids] at h2
    omega
  refine ⟨?_, ?_, ?_⟩
  · rw [separation_count_eq, hlen]
    decide
  · rw [hlen]
    decide
  · rw [sep_cons_eq, List.length_take, hlen]
    decide

end Seating
